/-
Verification of the analysis core and frontend helpers of the
Stock-analysis-dashboard repository.

The analysis core (SMA engine, returns engine, runs analyzer, max-profit
engine, validation harness) lives in the Flask backend `backend/app.py`,
which is not part of the checked-in sources; only its documentation
(IMPLEMENTATION_SUMMARY.md), its TypeScript result-shape declarations
(src/types.ts) and its HTTP callers (src/api.ts) are.  Those engines are
therefore modelled from the specification's §4.2–§4.7 and §8, as noted on
each definition.  The frontend helpers (src/api.ts, AnalysisControls.tsx)
are embedded directly from the TypeScript source.

Prices are modelled as rationals (ℚ): the spec's algorithms are exact
arithmetic over the close-price sequence, and every claim under test is an
algebraic fact about them.
-/
import Mathlib

namespace StockDashboard

/-! ## Max-Profit Engine (spec §4.5) -/

/-- One buy-then-sell pair, shaped after `AnalysisResults.max_profit.transactions`
in src/types.ts (`buy_day`, `sell_day`, `buy_price`, `sell_price`, `profit`). -/
structure Transaction where
  buy_day : ℕ
  sell_day : ℕ
  buy_price : ℚ
  sell_price : ℚ
  profit : ℚ
  deriving Repr, DecidableEq

/-- Result shape of the max-profit engine (`total_profit`, `transactions`),
after `AnalysisResults.max_profit` in src/types.ts. -/
structure MaxProfitResult where
  total_profit : ℚ
  transactions : List Transaction
  deriving Repr, DecidableEq

/-- Modelled from the spec: §4.5 — the greedy total profit, "sum every positive
day-over-day delta (`max(0, close[i]-close[i-1])` summed over all i)".
The backend implementation (`calculate_max_profit` in backend/app.py) is not
in the checked-in sources. -/
def positiveDeltaSum : List ℚ → ℚ
  | [] => 0
  | a :: rest =>
      match rest with
      | [] => 0
      | b :: _ => max 0 (b - a) + positiveDeltaSum rest

/-- Modelled from the spec: §4.5 — transaction reconstruction by scanning for
maximal monotonically-increasing runs of the close price; `i` is the index of
`prev` (the last price seen), `buyIdx`/`buyPrice` the start of the current
increasing run.  A run that gained value is emitted as one transaction with
buy at the run start and sell at the run end. -/
def txnsAux (i buyIdx : ℕ) (buyPrice prev : ℚ) : List ℚ → List Transaction
  | [] =>
      if buyPrice < prev then [⟨buyIdx, i, buyPrice, prev, prev - buyPrice⟩] else []
  | q :: rest =>
      if prev < q then
        txnsAux (i + 1) buyIdx buyPrice q rest
      else
        (if buyPrice < prev then [⟨buyIdx, i, buyPrice, prev, prev - buyPrice⟩] else [])
          ++ txnsAux (i + 1) (i + 1) q q rest

/-- Modelled from the spec: §4.5 `computeMaxProfit(series)` — unlimited-transaction
profit maximization (LeetCode Best Time to Buy and Sell Stock II per
IMPLEMENTATION_SUMMARY.md); total profit is the greedy positive-delta sum and
the transaction list is the increasing-run decomposition. -/
def computeMaxProfit (closes : List ℚ) : MaxProfitResult :=
  match closes with
  | [] => ⟨0, []⟩
  | c :: rest => ⟨positiveDeltaSum (c :: rest), txnsAux 0 0 c c rest⟩

/-! ### Total profit equals the positive-delta sum over indices -/

theorem positiveDeltaSum_eq_sum (a : ℚ) (rest : List ℚ) :
    positiveDeltaSum (a :: rest) =
      ∑ i ∈ Finset.range rest.length,
        max 0 ((a :: rest).getD (i + 1) 0 - (a :: rest).getD i 0) := by
  induction rest generalizing a with
  | nil => simp [positiveDeltaSum]
  | cons b t ih =>
      rw [positiveDeltaSum]
      rw [List.length_cons, Finset.sum_range_succ']
      rw [ih b]
      have hstep : ∀ x : ℕ,
          (a :: b :: t).getD (x + 1 + 1) 0 - (a :: b :: t).getD (x + 1) 0 =
            (b :: t).getD (x + 1) 0 - (b :: t).getD x 0 := by
        intro x
        simp only [List.getD_cons_succ]
      simp only [hstep, List.getD_cons_succ, List.getD_cons_zero]
      exact add_comm _ _

/-! ### Structural invariants of the transaction list -/

theorem drop_head_getD (l : List ℚ) (n : ℕ) (q : ℚ) (t : List ℚ)
    (h : l.drop n = q :: t) : l.getD n 0 = q ∧ l.drop (n + 1) = t := by
  induction l generalizing n with
  | nil => simp at h
  | cons a l ih =>
      cases n with
      | zero =>
          rw [List.drop_zero] at h
          cases h
          exact ⟨rfl, by simp⟩
      | succ n =>
          rw [List.drop_succ_cons] at h
          simpa using ih n h

theorem length_le_of_drop_eq_nil {l : List ℚ} {n : ℕ} (h : l.drop n = []) :
    l.length ≤ n := by
  have h2 := congrArg List.length h
  rw [List.length_drop] at h2
  simp only [List.length_nil] at h2
  omega

/-- The close price increases strictly at every step of `[a, b)`. -/
def IncrRange (c : List ℚ) (a b : ℕ) : Prop :=
  ∀ k, a ≤ k → k < b → c.getD k 0 < c.getD (k + 1) 0

/-- A transaction is well-formed for the series `c`: it buys strictly before it
sells inside the series, its prices are the closes at those days, its profit is
the positive price difference, and its interval is a maximal monotonically
increasing run of the close price. -/
def txnOK (c : List ℚ) (t : Transaction) : Prop :=
  t.buy_day < t.sell_day ∧
  t.sell_day < c.length ∧
  t.buy_price = c.getD t.buy_day 0 ∧
  t.sell_price = c.getD t.sell_day 0 ∧
  t.profit = t.sell_price - t.buy_price ∧
  0 < t.profit ∧
  IncrRange c t.buy_day t.sell_day ∧
  (t.buy_day = 0 ∨ ¬ c.getD (t.buy_day - 1) 0 < c.getD t.buy_day 0) ∧
  (t.sell_day + 1 = c.length ∨ ¬ c.getD t.sell_day 0 < c.getD (t.sell_day + 1) 0)

theorem txnsAux_ok (closes : List ℚ) :
    ∀ (rest : List ℚ) (i buyIdx : ℕ),
      rest = closes.drop (i + 1) →
      i < closes.length →
      buyIdx ≤ i →
      IncrRange closes buyIdx i →
      (buyIdx = 0 ∨ ¬ closes.getD (buyIdx - 1) 0 < closes.getD buyIdx 0) →
      (∀ t ∈ txnsAux i buyIdx (closes.getD buyIdx 0) (closes.getD i 0) rest,
          txnOK closes t ∧ buyIdx ≤ t.buy_day) ∧
        List.Chain' (fun s t => s.sell_day ≤ t.buy_day)
          (txnsAux i buyIdx (closes.getD buyIdx 0) (closes.getD i 0) rest) := by
  intro rest
  induction rest with
  | nil =>
      intro i buyIdx hdrop hi hbi hinc hmax
      have hlen : closes.length = i + 1 := by
        have := length_le_of_drop_eq_nil hdrop.symm
        omega
      by_cases hlt : closes.getD buyIdx 0 < closes.getD i 0
      · rw [txnsAux, if_pos hlt]
        refine ⟨?_, List.chain'_singleton _⟩
        intro t ht
        rw [List.mem_singleton] at ht
        subst ht
        have hne : buyIdx ≠ i := by
          intro e
          rw [e] at hlt
          exact lt_irrefl _ hlt
        exact ⟨⟨lt_of_le_of_ne hbi hne, hi, rfl, rfl, rfl, sub_pos.mpr hlt, hinc,
          hmax, Or.inl hlen.symm⟩, le_refl _⟩
      · rw [txnsAux, if_neg hlt]
        exact ⟨by simp, List.chain'_nil⟩
  | cons q rest' ih =>
      intro i buyIdx hdrop hi hbi hinc hmax
      obtain ⟨hq, hdrop'⟩ := drop_head_getD closes (i + 1) q rest' hdrop.symm
      have hi1 : i + 1 < closes.length := by
        have h2 := congrArg List.length hdrop.symm
        rw [List.length_drop, List.length_cons] at h2
        omega
      rw [txnsAux]
      by_cases hup : closes.getD i 0 < q
      · rw [if_pos hup]
        have hinc1 : IncrRange closes buyIdx (i + 1) := by
          intro k hk1 hk2
          rcases Nat.lt_succ_iff_lt_or_eq.mp hk2 with hk | hk
          · exact hinc k hk1 hk
          · subst hk
            rw [hq]
            exact hup
        have := ih (i + 1) buyIdx hdrop'.symm hi1 (Nat.le_succ_of_le hbi) hinc1 hmax
        rw [hq] at this
        exact this
      · rw [if_neg hup]
        have hrec := ih (i + 1) (i + 1) hdrop'.symm hi1 (le_refl _)
          (fun k hk1 hk2 => absurd (lt_of_le_of_lt hk1 hk2) (lt_irrefl _))
          (Or.inr (by
            intro hcon
            rw [Nat.add_sub_cancel, hq] at hcon
            exact hup hcon))
        rw [hq] at hrec
        by_cases hbp : closes.getD buyIdx 0 < closes.getD i 0
        · rw [if_pos hbp, List.singleton_append]
          have hne : buyIdx ≠ i := by
            intro e
            rw [e] at hbp
            exact lt_irrefl _ hbp
          have headOK : txnOK closes
              ⟨buyIdx, i, closes.getD buyIdx 0, closes.getD i 0,
                closes.getD i 0 - closes.getD buyIdx 0⟩ :=
            ⟨lt_of_le_of_ne hbi hne, hi, rfl, rfl, rfl, sub_pos.mpr hbp, hinc,
              hmax, Or.inr (by rwa [hq])⟩
          refine ⟨?_, ?_⟩
          · intro t ht
            rcases List.mem_cons.mp ht with ht | ht
            · subst ht
              exact ⟨headOK, le_refl _⟩
            · obtain ⟨h1, h2⟩ := hrec.1 t ht
              exact ⟨h1, le_trans (Nat.le_succ_of_le hbi) h2⟩
          · rw [List.chain'_cons']
            refine ⟨?_, hrec.2⟩
            intro b hb
            have hb' : b ∈ txnsAux (i + 1) (i + 1) q q rest' :=
              List.mem_of_mem_head? hb
            exact le_trans (Nat.le_succ i) (hrec.1 b hb').2
        · rw [if_neg hbp, List.nil_append]
          refine ⟨?_, hrec.2⟩
          intro t ht
          obtain ⟨h1, h2⟩ := hrec.1 t ht
          exact ⟨h1, le_trans (Nat.le_succ_of_le hbi) h2⟩

theorem txnsAux_profit_sum :
    ∀ (rest : List ℚ) (i buyIdx : ℕ) (bp prev : ℚ), bp ≤ prev →
      ((txnsAux i buyIdx bp prev rest).map Transaction.profit).sum =
        (prev - bp) + positiveDeltaSum (prev :: rest) := by
  intro rest
  induction rest with
  | nil =>
      intro i buyIdx bp prev hle
      by_cases hlt : bp < prev
      · rw [txnsAux, if_pos hlt]
        simp [positiveDeltaSum]
      · have : bp = prev := le_antisymm hle (le_of_not_lt hlt)
        rw [txnsAux, if_neg hlt]
        simp [positiveDeltaSum, this]
  | cons q rest' ih =>
      intro i buyIdx bp prev hle
      rw [txnsAux]
      by_cases hup : prev < q
      · rw [if_pos hup, ih (i + 1) buyIdx bp q (le_trans hle (le_of_lt hup))]
        rw [positiveDeltaSum]
        have hmax : max 0 (q - prev) = q - prev :=
          max_eq_right (by linarith)
        rw [hmax]
        ring
      · rw [if_neg hup, List.map_append, List.sum_append,
          ih (i + 1) (i + 1) q q (le_refl q)]
        rw [positiveDeltaSum]
        have hmax : max 0 (q - prev) = 0 :=
          max_eq_left (by simp at hup ⊢; linarith)
        rw [hmax]
        by_cases hbp : bp < prev
        · rw [if_pos hbp]
          simp only [List.map_cons, List.map_nil, List.sum_cons, List.sum_nil]
          ring
        · have : bp = prev := le_antisymm hle (le_of_not_lt hbp)
          rw [if_neg hbp]
          simp [this]

theorem positiveDeltaSum_of_nonincreasing :
    ∀ closes : List ℚ, List.Chain' (fun a b => b ≤ a) closes →
      positiveDeltaSum closes = 0 := by
  intro closes
  induction closes with
  | nil => intro _; rfl
  | cons a rest ih =>
      intro h
      cases rest with
      | nil => rfl
      | cons b t =>
          rw [List.chain'_cons] at h
          rw [positiveDeltaSum, ih h.2, max_eq_left (by linarith [h.1])]
          ring

theorem txnsAux_of_nonincreasing :
    ∀ (rest : List ℚ) (i buyIdx : ℕ) (bp prev : ℚ), prev ≤ bp →
      List.Chain' (fun a b => b ≤ a) (prev :: rest) →
      txnsAux i buyIdx bp prev rest = [] := by
  intro rest
  induction rest with
  | nil =>
      intro i buyIdx bp prev hle _
      rw [txnsAux, if_neg (not_lt.mpr hle)]
  | cons q rest' ih =>
      intro i buyIdx bp prev hle hchain
      rw [List.chain'_cons] at hchain
      rw [txnsAux, if_neg (not_lt.mpr hchain.1),
        if_neg (not_lt.mpr hle), List.nil_append]
      exact ih (i + 1) (i + 1) q q (le_refl q) hchain.2

/-- C1: for every price series of length N ≥ 1, `computeMaxProfit` returns
`total_profit` equal to the sum over i in [1, N-1] of max(0, close[i]-close[i-1]);
closes [1,5,3,8,2] yield profit 9 with exactly the two transactions
buy@0/sell@1 (profit 4) and buy@2/sell@3 (profit 5); any monotonically
non-increasing series (e.g. [9,7,5]) yields profit 0 and no transactions. -/
theorem maxProfit_greedy_delta_sum :
    (∀ closes : List ℚ, 1 ≤ closes.length →
      (computeMaxProfit closes).total_profit =
        ∑ i ∈ Finset.range (closes.length - 1),
          max 0 (closes.getD (i + 1) 0 - closes.getD i 0)) ∧
    computeMaxProfit [1, 5, 3, 8, 2] =
      ⟨9, [⟨0, 1, 1, 5, 4⟩, ⟨2, 3, 3, 8, 5⟩]⟩ ∧
    (∀ closes : List ℚ, List.Chain' (fun a b => b ≤ a) closes →
      computeMaxProfit closes = ⟨0, []⟩) ∧
    computeMaxProfit [9, 7, 5] = ⟨0, []⟩ := by
  have hnoninc : ∀ closes : List ℚ, List.Chain' (fun a b => b ≤ a) closes →
      computeMaxProfit closes = ⟨0, []⟩ := by
    intro closes hchain
    cases closes with
    | nil => rfl
    | cons c rest =>
        rw [computeMaxProfit, positiveDeltaSum_of_nonincreasing _ hchain,
          txnsAux_of_nonincreasing rest 0 0 c c (le_refl c) hchain]
  refine ⟨?_, ?_, hnoninc, ?_⟩
  · intro closes h
    cases closes with
    | nil => simp at h
    | cons c rest =>
        show positiveDeltaSum (c :: rest) = _
        simpa using positiveDeltaSum_eq_sum c rest
  · norm_num [computeMaxProfit, txnsAux, positiveDeltaSum]
  · exact hnoninc [9, 7, 5] (by norm_num [List.chain'_cons])

theorem maxProfit_greedy_delta_sum_witness :
    (computeMaxProfit [1, 5, 3, 8, 2]).total_profit =
      ∑ i ∈ Finset.range (([1, 5, 3, 8, 2] : List ℚ).length - 1),
        max 0 (([1, 5, 3, 8, 2] : List ℚ).getD (i + 1) 0 -
          ([1, 5, 3, 8, 2] : List ℚ).getD i 0) :=
  maxProfit_greedy_delta_sum.1 [1, 5, 3, 8, 2] (by simp)

/-- C5: the transaction list of `computeMaxProfit` is ordered and
non-overlapping (buy strictly before sell, each buy at or after the previous
sell), every transaction has positive profit `sell_price - buy_price`, each
transaction is a maximal monotonically-increasing run of the close price
bought at the run start and sold at the run end, and the profits sum to
`total_profit`. -/
theorem maxProfit_transactions_invariants (closes : List ℚ) :
    (∀ t ∈ (computeMaxProfit closes).transactions, txnOK closes t) ∧
    List.Chain' (fun s t => s.sell_day ≤ t.buy_day)
      (computeMaxProfit closes).transactions ∧
    ((computeMaxProfit closes).transactions.map Transaction.profit).sum =
      (computeMaxProfit closes).total_profit := by
  cases closes with
  | nil =>
      refine ⟨?_, ?_, ?_⟩ <;> simp [computeMaxProfit]
  | cons c rest =>
      have h := txnsAux_ok (c :: rest) rest 0 0 rfl (by simp) (le_refl 0)
        (fun k _ hk2 => absurd hk2 (Nat.not_lt_zero k)) (Or.inl rfl)
      rw [List.getD_cons_zero] at h
      have hsum := txnsAux_profit_sum rest 0 0 c c (le_refl c)
      rw [computeMaxProfit]
      refine ⟨fun t ht => (h.1 t ht).1, h.2, ?_⟩
      rw [hsum]
      ring

theorem maxProfit_transactions_invariants_witness :
    txnOK [1, 5, 3, 8, 2] ⟨0, 1, 1, 5, 4⟩ :=
  (maxProfit_transactions_invariants [1, 5, 3, 8, 2]).1 ⟨0, 1, 1, 5, 4⟩
    (by norm_num [computeMaxProfit, txnsAux])

/-! ## Runs Analyzer (spec §4.4) -/

/-- Direction of a run of consecutive same-direction day-over-day changes. -/
inductive Direction where
  | up
  | down
  deriving Repr, DecidableEq

/-- A maximal consecutive same-direction run, per spec §3:
`{direction, start_index, end_index, length = end-start+1}`; indices are the
day indices whose day-over-day delta has that direction. -/
structure Run where
  direction : Direction
  start_index : ℕ
  end_index : ℕ
  length : ℕ
  deriving Repr, DecidableEq

/-- Result shape of the runs analyzer, after `AnalysisResults.runs_analysis`
in src/types.ts plus the run list of spec §4.4. -/
structure RunsAnalysis where
  runs : List Run
  total_upward_runs : ℕ
  total_downward_runs : ℕ
  longest_upward_streak : ℕ
  longest_downward_streak : ℕ
  total_upward_days : ℕ
  total_downward_days : ℕ
  deriving Repr, DecidableEq

def emptyRunsAnalysis : RunsAnalysis := ⟨[], 0, 0, 0, 0, 0, 0⟩

/-- Close the run of direction `d` spanning day indices `[s, e]`: append it to
the run list and fold it into the single-pass aggregate counters. -/
def recordRun (a : RunsAnalysis) (d : Direction) (s e : ℕ) : RunsAnalysis :=
  match d with
  | .up =>
      { a with
        runs := a.runs ++ [⟨.up, s, e, e - s + 1⟩]
        total_upward_runs := a.total_upward_runs + 1
        longest_upward_streak := max a.longest_upward_streak (e - s + 1)
        total_upward_days := a.total_upward_days + (e - s + 1) }
  | .down =>
      { a with
        runs := a.runs ++ [⟨.down, s, e, e - s + 1⟩]
        total_downward_runs := a.total_downward_runs + 1
        longest_downward_streak := max a.longest_downward_streak (e - s + 1)
        total_downward_days := a.total_downward_days + (e - s + 1) }

/-- Modelled from the spec: §4.4 — single left-to-right walk over day-over-day
close deltas.  `i` is the index of the day about to be processed (`q` is
close[i], `prev` is close[i-1]), `cur` the direction and start index of the
open run if any.  A positive delta extends or starts an up-run, a negative
delta extends or starts a down-run, and a zero delta closes the current run
without starting a new one.  The backend implementation (`analyze_runs` in
backend/app.py) is not in the checked-in sources. -/
def runsAux (i : ℕ) (prev : ℚ) (cur : Option (Direction × ℕ)) (acc : RunsAnalysis) :
    List ℚ → RunsAnalysis
  | [] =>
      match cur with
      | none => acc
      | some (d, s) => recordRun acc d s (i - 1)
  | q :: rest =>
      if prev < q then
        match cur with
        | some (.up, s) => runsAux (i + 1) q (some (.up, s)) acc rest
        | some (.down, s) =>
            runsAux (i + 1) q (some (.up, i)) (recordRun acc .down s (i - 1)) rest
        | none => runsAux (i + 1) q (some (.up, i)) acc rest
      else if q < prev then
        match cur with
        | some (.down, s) => runsAux (i + 1) q (some (.down, s)) acc rest
        | some (.up, s) =>
            runsAux (i + 1) q (some (.down, i)) (recordRun acc .up s (i - 1)) rest
        | none => runsAux (i + 1) q (some (.down, i)) acc rest
      else
        match cur with
        | some (d, s) => runsAux (i + 1) q none (recordRun acc d s (i - 1)) rest
        | none => runsAux (i + 1) q none acc rest

/-- Modelled from the spec: §4.4 `analyzeRuns(series)` — runs the delta walk
from day 1 with no open run and empty aggregates. -/
def analyzeRuns (closes : List ℚ) : RunsAnalysis :=
  match closes with
  | [] => emptyRunsAnalysis
  | c :: rest => runsAux 1 c none emptyRunsAnalysis rest

/-- The runs of one direction, in order. -/
def dirRuns (d : Direction) (rs : List Run) : List Run :=
  rs.filter (fun r => r.direction == d)

/-- Maximum run length of a run list (0 when empty). -/
def maxRunLength (rs : List Run) : ℕ :=
  (rs.map Run.length).foldr max 0

/-- Total days covered by a run list (sum of lengths). -/
def totalRunDays (rs : List Run) : ℕ :=
  (rs.map Run.length).sum

/-- The aggregate counters agree with the run list: counts are numbers of runs
per direction, longest streaks are maxima of run lengths (0 if none), and the
total up/down days are sums of run lengths. -/
def Consistent (a : RunsAnalysis) : Prop :=
  a.total_upward_runs = (dirRuns .up a.runs).length ∧
  a.total_downward_runs = (dirRuns .down a.runs).length ∧
  a.longest_upward_streak = maxRunLength (dirRuns .up a.runs) ∧
  a.longest_downward_streak = maxRunLength (dirRuns .down a.runs) ∧
  a.total_upward_days = totalRunDays (dirRuns .up a.runs) ∧
  a.total_downward_days = totalRunDays (dirRuns .down a.runs)

theorem foldr_max_append (xs : List ℕ) (y : ℕ) :
    (xs ++ [y]).foldr max 0 = max (xs.foldr max 0) y := by
  induction xs with
  | nil => simp
  | cons x xs ih =>
      simp only [List.cons_append, List.foldr_cons, ih]
      omega

theorem dirRuns_append (d : Direction) (rs : List Run) (r : Run) :
    dirRuns d (rs ++ [r]) =
      dirRuns d rs ++ (if r.direction == d then [r] else []) := by
  simp only [dirRuns, List.filter_append]
  by_cases h : r.direction = d
  · simp [h]
  · simp [h]

theorem maxRunLength_append (rs : List Run) (r : Run) :
    maxRunLength (rs ++ [r]) = max (maxRunLength rs) r.length := by
  simp only [maxRunLength, List.map_append, List.map_cons, List.map_nil]
  exact foldr_max_append _ _

theorem totalRunDays_append (rs : List Run) (r : Run) :
    totalRunDays (rs ++ [r]) = totalRunDays rs + r.length := by
  simp [totalRunDays]

theorem recordRun_consistent (a : RunsAnalysis) (d : Direction) (s e : ℕ)
    (h : Consistent a) : Consistent (recordRun a d s e) := by
  obtain ⟨h1, h2, h3, h4, h5, h6⟩ := h
  cases d with
  | up =>
      refine ⟨?_, ?_, ?_, ?_, ?_, ?_⟩ <;>
        simp [recordRun, dirRuns_append, maxRunLength_append, totalRunDays_append,
          h1, h2, h3, h4, h5, h6]
  | down =>
      refine ⟨?_, ?_, ?_, ?_, ?_, ?_⟩ <;>
        simp [recordRun, dirRuns_append, maxRunLength_append, totalRunDays_append,
          h1, h2, h3, h4, h5, h6]

theorem runsAux_consistent :
    ∀ (rest : List ℚ) (i : ℕ) (prev : ℚ) (cur : Option (Direction × ℕ))
      (acc : RunsAnalysis), Consistent acc →
      Consistent (runsAux i prev cur acc rest) := by
  intro rest
  induction rest with
  | nil =>
      intro i prev cur acc hacc
      rcases cur with _ | ⟨d, s⟩
      · simpa [runsAux] using hacc
      · simpa [runsAux] using recordRun_consistent acc d s (i - 1) hacc
  | cons q rest' ih =>
      intro i prev cur acc hacc
      by_cases h1 : prev < q
      · rcases cur with _ | ⟨d, s⟩
        · simpa [runsAux, h1] using ih (i + 1) q (some (.up, i)) acc hacc
        · cases d with
          | up => simpa [runsAux, h1] using ih (i + 1) q (some (.up, s)) acc hacc
          | down =>
              simpa [runsAux, h1] using ih (i + 1) q (some (.up, i)) _
                (recordRun_consistent acc .down s (i - 1) hacc)
      · by_cases h2 : q < prev
        · rcases cur with _ | ⟨d, s⟩
          · simpa [runsAux, h1, h2] using ih (i + 1) q (some (.down, i)) acc hacc
          · cases d with
            | down =>
                simpa [runsAux, h1, h2] using ih (i + 1) q (some (.down, s)) acc hacc
            | up =>
                simpa [runsAux, h1, h2] using ih (i + 1) q (some (.down, i)) _
                  (recordRun_consistent acc .up s (i - 1) hacc)
        · rcases cur with _ | ⟨d, s⟩
          · simpa [runsAux, h1, h2] using ih (i + 1) q none acc hacc
          · simpa [runsAux, h1, h2] using ih (i + 1) q none _
              (recordRun_consistent acc d s (i - 1) hacc)

/-- C2: `analyzeRuns` is the left-to-right walk over day-over-day close deltas
(positive delta extends/starts an up-run, negative extends/starts a down-run,
zero closes the current run without starting one); its longest streaks are the
maximum run length per direction (0 if none) and its totals are the sums of run
lengths per direction.  Strictly increasing closes [1,2,3,4] give one up-run of
length 3 over indices 1-3 and longest_upward_streak 3; flat closes [5,5,5] give
no runs at all. -/
theorem analyzeRuns_reference_walk :
    (∀ closes : List ℚ, Consistent (analyzeRuns closes)) ∧
    analyzeRuns [1, 2, 3, 4] = ⟨[⟨.up, 1, 3, 3⟩], 1, 0, 3, 0, 3, 0⟩ ∧
    analyzeRuns [5, 5, 5] = ⟨[], 0, 0, 0, 0, 0, 0⟩ := by
  refine ⟨?_, ?_, ?_⟩
  · intro closes
    cases closes with
    | nil => exact ⟨rfl, rfl, rfl, rfl, rfl, rfl⟩
    | cons c rest =>
        exact runsAux_consistent rest 1 c none emptyRunsAnalysis
          ⟨rfl, rfl, rfl, rfl, rfl, rfl⟩
  · norm_num [analyzeRuns, runsAux, recordRun, emptyRunsAnalysis]
  · norm_num [analyzeRuns, runsAux, emptyRunsAnalysis]

/-! ## SMA Engine (spec §4.2) -/

/-- Fatal analysis errors of the core (spec §7 taxonomy; only the SMA window
error is reachable from the engines modelled here). -/
inductive AnalysisError where
  | invalidWindow
  deriving Repr, DecidableEq

/-- Running prefix sums of the closes (the running-sum O(N) algorithm of
spec §4.2): entry k is the sum of the first k closes. -/
def runningSums (closes : List ℚ) : List ℚ :=
  closes.scanl (· + ·) 0

/-- Modelled from the spec: §4.2 — SMA core over an already-validated window:
entry i is absent for i < window-1 and otherwise the width-`window` running-sum
difference ending at i, divided by the window. -/
def smaCore (w : ℕ) (closes : List ℚ) : List (Option ℚ) :=
  (List.range closes.length).map fun i =>
    if w ≤ i + 1 then
      some (((runningSums closes).getD (i + 1) 0 -
        (runningSums closes).getD (i + 1 - w) 0) / (w : ℚ))
    else none

/-- Modelled from the spec: §4.2 `computeSMA(series, window)` — fails with
`InvalidWindowError` when window < 1 or window > series length, else the
rolling mean with the first window-1 entries absent.  The backend
implementation (`calculate_sma` in backend/app.py) is not in the checked-in
sources. -/
def computeSMA (closes : List ℚ) (window : ℤ) :
    Except AnalysisError (List (Option ℚ)) :=
  if window < 1 ∨ (closes.length : ℤ) < window then
    .error .invalidWindow
  else
    .ok (smaCore window.toNat closes)

theorem scanl_add_getD (l : List ℚ) :
    ∀ (a : ℚ) (k : ℕ), k ≤ l.length →
      (List.scanl (· + ·) a l).getD k 0 = a + (l.take k).sum := by
  induction l with
  | nil =>
      intro a k hk
      have : k = 0 := Nat.le_zero.mp hk
      subst this
      simp [List.scanl]
  | cons x xs ih =>
      intro a k hk
      rw [List.scanl]
      cases k with
      | zero => simp
      | succ k =>
          rw [List.getD_cons_succ, ih (a + x) k (by simpa using hk),
            List.take_succ_cons, List.sum_cons]
          ring

theorem runningSums_getD (closes : List ℚ) (k : ℕ) (hk : k ≤ closes.length) :
    (runningSums closes).getD k 0 = (closes.take k).sum := by
  rw [runningSums, scanl_add_getD closes 0 k hk, zero_add]

theorem take_sum_eq_range_sum (l : List ℚ) :
    ∀ k : ℕ, k ≤ l.length →
      (l.take k).sum = ∑ j ∈ Finset.range k, l.getD j 0 := by
  induction l with
  | nil =>
      intro k hk
      have : k = 0 := Nat.le_zero.mp hk
      subst this
      simp
  | cons x xs ih =>
      intro k hk
      cases k with
      | zero => simp
      | succ k =>
          rw [List.take_succ_cons, List.sum_cons, Finset.sum_range_succ',
            ih k (by simpa using hk)]
          simp only [List.getD_cons_succ, List.getD_cons_zero]
          exact add_comm _ _

theorem getD_drop_add (l : List ℚ) :
    ∀ (m j : ℕ), (l.drop m).getD j 0 = l.getD (m + j) 0 := by
  induction l with
  | nil => intro m j; simp
  | cons x xs ih =>
      intro m j
      cases m with
      | zero => simp
      | succ m =>
          rw [List.drop_succ_cons, ih m j]
          have : m + 1 + j = (m + j) + 1 := by omega
          rw [this, List.getD_cons_succ]

/-- The running-sum difference over `[i+1-w, i]` is the genuine window sum. -/
theorem runningSums_window (closes : List ℚ) (w i : ℕ)
    (hw : w ≤ i + 1) (hi : i < closes.length) :
    (runningSums closes).getD (i + 1) 0 - (runningSums closes).getD (i + 1 - w) 0 =
      ∑ j ∈ Finset.range w, closes.getD (i + 1 - w + j) 0 := by
  have hsplit : i + 1 = (i + 1 - w) + w := by omega
  have key : (closes.take (i + 1)).sum =
      (closes.take (i + 1 - w)).sum + ((closes.drop (i + 1 - w)).take w).sum := by
    conv_lhs => rw [hsplit]
    rw [List.take_add, List.sum_append]
  rw [runningSums_getD closes (i + 1) hi,
    runningSums_getD closes (i + 1 - w) (by omega), key, add_sub_cancel_left]
  rw [take_sum_eq_range_sum (closes.drop (i + 1 - w)) w
    (by rw [List.length_drop]; omega)]
  exact Finset.sum_congr rfl fun j _ => getD_drop_add closes (i + 1 - w) j

theorem smaCore_getD (w : ℕ) (closes : List ℚ) (i : ℕ) (hi : i < closes.length) :
    (smaCore w closes).getD i none =
      if w ≤ i + 1 then
        some (((runningSums closes).getD (i + 1) 0 -
          (runningSums closes).getD (i + 1 - w) 0) / (w : ℚ))
      else none := by
  rw [smaCore, List.getD_eq_getElem?_getD, List.getElem?_map, List.getElem?_range hi]
  rfl

/-- C3: for every series of length N and window w with 1 ≤ w ≤ N, `computeSMA`
succeeds with a sequence of length N whose entry i is absent for i < w-1 and is
the arithmetic mean of close[i-w+1..i] for i ≥ w-1; closes [10,11,12,13,14]
with window 3 give [absent, absent, 11, 12, 13]. -/
theorem computeSMA_rolling_mean :
    (∀ (closes : List ℚ) (w : ℕ), 1 ≤ w → w ≤ closes.length →
      ∃ r, computeSMA closes (w : ℤ) = .ok r ∧
        r.length = closes.length ∧
        ∀ i < closes.length,
          (i < w - 1 → r.getD i none = none) ∧
          (w - 1 ≤ i → r.getD i none =
            some ((∑ j ∈ Finset.range w, closes.getD (i + 1 - w + j) 0) / (w : ℚ)))) ∧
    computeSMA [10, 11, 12, 13, 14] 3 =
      .ok [none, none, some 11, some 12, some 13] := by
  constructor
  · intro closes w hw hlen
    refine ⟨smaCore w closes, ?_, by simp [smaCore], ?_⟩
    · rw [computeSMA, if_neg]
      · simp
      · push_neg
        exact ⟨by exact_mod_cast hw, by exact_mod_cast hlen⟩
    · intro i hi
      rw [smaCore_getD w closes i hi]
      constructor
      · intro hlt
        rw [if_neg (by omega)]
      · intro hge
        rw [if_pos (by omega), runningSums_window closes w i (by omega) hi]
  · have h3 : Int.toNat 3 = 3 := rfl
    norm_num [computeSMA, smaCore, runningSums, List.scanl, List.range_succ, h3]

theorem computeSMA_rolling_mean_witness :
    ∃ r, computeSMA [10, 11, 12, 13, 14] ((3 : ℕ) : ℤ) = .ok r ∧
      r.length = ([10, 11, 12, 13, 14] : List ℚ).length ∧
      ∀ i < ([10, 11, 12, 13, 14] : List ℚ).length,
        (i < 3 - 1 → r.getD i none = none) ∧
        (3 - 1 ≤ i → r.getD i none =
          some ((∑ j ∈ Finset.range 3,
            ([10, 11, 12, 13, 14] : List ℚ).getD (i + 1 - 3 + j) 0) / ((3 : ℕ) : ℚ))) :=
  computeSMA_rolling_mean.1 [10, 11, 12, 13, 14] 3 (by norm_num) (by norm_num)

/-- C6: `computeSMA` fails with `InvalidWindowError` exactly when window < 1 or
window > series length (no partial result in that case, since the error is the
whole result); at window = series length ≥ 1 it succeeds and the single defined
value sits at the last index. -/
theorem computeSMA_window_errors :
    (∀ (closes : List ℚ) (window : ℤ),
      computeSMA closes window = .error .invalidWindow ↔
        (window < 1 ∨ (closes.length : ℤ) < window)) ∧
    (∀ closes : List ℚ, 1 ≤ closes.length →
      ∃ r, computeSMA closes (closes.length : ℤ) = .ok r ∧
        r.length = closes.length ∧
        ∀ i < closes.length, ((r.getD i none).isSome ↔ i = closes.length - 1)) := by
  constructor
  · intro closes window
    constructor
    · intro h
      by_contra hcon
      rw [computeSMA, if_neg hcon] at h
      exact Except.noConfusion h
    · intro h
      rw [computeSMA, if_pos h]
  · intro closes hlen
    refine ⟨smaCore closes.length closes, ?_, by simp [smaCore], ?_⟩
    · rw [computeSMA, if_neg]
      · simp
      · push_neg
        exact ⟨by exact_mod_cast hlen, le_refl _⟩
    · intro i hi
      rw [smaCore_getD closes.length closes i hi]
      constructor
      · intro hs
        by_contra hne
        rw [if_neg (by omega)] at hs
        simp at hs
      · intro he
        rw [if_pos (by omega)]
        simp

theorem computeSMA_window_errors_witness :
    (computeSMA [10, 11, 9] 5 = .error .invalidWindow ↔
      ((5 : ℤ) < 1 ∨ (([10, 11, 9] : List ℚ).length : ℤ) < 5)) ∧
    ∃ r, computeSMA [7, 8, 6] ((([7, 8, 6] : List ℚ).length : ℕ) : ℤ) = .ok r ∧
      r.length = ([7, 8, 6] : List ℚ).length ∧
      ∀ i < ([7, 8, 6] : List ℚ).length,
        ((r.getD i none).isSome ↔ i = ([7, 8, 6] : List ℚ).length - 1) :=
  ⟨computeSMA_window_errors.1 [10, 11, 9] 5,
    computeSMA_window_errors.2 [7, 8, 6] (by norm_num)⟩

/-! ## Returns Engine (spec §4.3) -/

/-- Modelled from the spec: §4.3 — walk from the second day computing
`(close[i] - close[i-1]) / close[i-1]`; a zero prior close yields an absent
(flagged) value at that point only, per the §7 per-point policy. -/
def returnsGo (prev : ℚ) : List ℚ → List (Option ℚ)
  | [] => []
  | c :: rest =>
      (if prev = 0 then none else some ((c - prev) / prev)) :: returnsGo c rest

/-- Modelled from the spec: §4.3 `computeDailyReturns(series)` — entry 0 is
absent (no prior close) and entry i ≥ 1 is the day-over-day percentage change.
The backend implementation (`calculate_daily_returns` in backend/app.py) is
not in the checked-in sources. -/
def computeDailyReturns (closes : List ℚ) : List (Option ℚ) :=
  match closes with
  | [] => []
  | c :: rest => none :: returnsGo c rest

theorem returnsGo_length (rest : List ℚ) :
    ∀ prev : ℚ, (returnsGo prev rest).length = rest.length := by
  induction rest with
  | nil => intro prev; rfl
  | cons c rest' ih =>
      intro prev
      rw [returnsGo, List.length_cons, List.length_cons, ih c]

theorem returnsGo_getD (rest : List ℚ) :
    ∀ (prev : ℚ) (i : ℕ), i < rest.length →
      (returnsGo prev rest).getD i none =
        if (prev :: rest).getD i 0 = 0 then none
        else some (((prev :: rest).getD (i + 1) 0 - (prev :: rest).getD i 0) /
          (prev :: rest).getD i 0) := by
  induction rest with
  | nil =>
      intro prev i hi
      simp at hi
  | cons c rest' ih =>
      intro prev i hi
      cases i with
      | zero =>
          rw [returnsGo]
          simp only [List.getD_cons_zero, List.getD_cons_succ]
      | succ k =>
          rw [returnsGo]
          simp only [List.getD_cons_succ]
          exact ih c k (by simpa using hi)

theorem computeDailyReturns_length (closes : List ℚ) :
    (computeDailyReturns closes).length = closes.length := by
  cases closes with
  | nil => rfl
  | cons c rest =>
      rw [computeDailyReturns, List.length_cons, List.length_cons,
        returnsGo_length rest c]

theorem computeDailyReturns_getD (closes : List ℚ) (i : ℕ) (h1 : 1 ≤ i)
    (h2 : i < closes.length) :
    (computeDailyReturns closes).getD i none =
      if closes.getD (i - 1) 0 = 0 then none
      else some ((closes.getD i 0 - closes.getD (i - 1) 0) /
        closes.getD (i - 1) 0) := by
  cases closes with
  | nil => simp at h2
  | cons c rest =>
      obtain ⟨k, rfl⟩ : ∃ k, i = k + 1 := ⟨i - 1, by omega⟩
      rw [computeDailyReturns, List.getD_cons_succ, Nat.add_sub_cancel,
        returnsGo_getD rest c k (by simpa using h2)]

/-- C4: for every series of length ≥ 2 with all prior closes non-zero,
`computeDailyReturns` has the series' length, entry 0 absent and entry i ≥ 1
equal to (close[i] - close[i-1]) / close[i-1]; closes [10,11,9] give
[absent, 1/10, -2/11] (the latter being -0.1818...). -/
theorem computeDailyReturns_formula :
    (∀ closes : List ℚ, 2 ≤ closes.length →
      (∀ i, 1 ≤ i → i < closes.length → closes.getD (i - 1) 0 ≠ 0) →
      (computeDailyReturns closes).length = closes.length ∧
      (computeDailyReturns closes).getD 0 none = none ∧
      ∀ i, 1 ≤ i → i < closes.length →
        (computeDailyReturns closes).getD i none =
          some ((closes.getD i 0 - closes.getD (i - 1) 0) /
            closes.getD (i - 1) 0)) ∧
    computeDailyReturns [10, 11, 9] = [none, some (1/10), some (-2/11)] := by
  constructor
  · intro closes hlen hnz
    refine ⟨computeDailyReturns_length closes, ?_, ?_⟩
    · cases closes with
      | nil => simp at hlen
      | cons c rest => rfl
    · intro i hi1 hi2
      rw [computeDailyReturns_getD closes i hi1 hi2, if_neg (hnz i hi1 hi2)]
  · norm_num [computeDailyReturns, returnsGo]

theorem computeDailyReturns_formula_witness :
    (computeDailyReturns [10, 11, 9]).length = ([10, 11, 9] : List ℚ).length ∧
    (computeDailyReturns [10, 11, 9]).getD 0 none = none ∧
    ∀ i, 1 ≤ i → i < ([10, 11, 9] : List ℚ).length →
      (computeDailyReturns [10, 11, 9]).getD i none =
        some ((([10, 11, 9] : List ℚ).getD i 0 -
          ([10, 11, 9] : List ℚ).getD (i - 1) 0) /
          ([10, 11, 9] : List ℚ).getD (i - 1) 0) :=
  computeDailyReturns_formula.1 [10, 11, 9] (by norm_num)
    (by
      intro i h1 h2
      simp only [List.length_cons, List.length_nil] at h2
      interval_cases i <;> norm_num)

/-- C7: a zero prior close never aborts `computeDailyReturns` and never leaks a
number there: the result always has the series' length, the entry after a zero
prior close is absent, and every entry whose prior close is non-zero is exactly
the (close[i]-close[i-1])/close[i-1] formula — the edge case is localized. -/
theorem computeDailyReturns_zero_prior (closes : List ℚ) :
    (computeDailyReturns closes).length = closes.length ∧
    ∀ i, 1 ≤ i → i < closes.length →
      (closes.getD (i - 1) 0 = 0 →
        (computeDailyReturns closes).getD i none = none) ∧
      (closes.getD (i - 1) 0 ≠ 0 →
        (computeDailyReturns closes).getD i none =
          some ((closes.getD i 0 - closes.getD (i - 1) 0) /
            closes.getD (i - 1) 0)) := by
  refine ⟨computeDailyReturns_length closes, ?_⟩
  intro i h1 h2
  rw [computeDailyReturns_getD closes i h1 h2]
  constructor
  · intro hz
    rw [if_pos hz]
  · intro hz
    rw [if_neg hz]

theorem computeDailyReturns_zero_prior_witness :
    (computeDailyReturns [0, 5, 10]).getD 1 none = none ∧
    (computeDailyReturns [0, 5, 10]).getD 2 none =
      some ((([0, 5, 10] : List ℚ).getD 2 0 - ([0, 5, 10] : List ℚ).getD 1 0) /
        ([0, 5, 10] : List ℚ).getD 1 0) :=
  ⟨(((computeDailyReturns_zero_prior [0, 5, 10]).2 1 (by norm_num)
      (by norm_num)).1 (by norm_num)),
    (((computeDailyReturns_zero_prior [0, 5, 10]).2 2 (by norm_num)
      (by norm_num)).2 (by norm_num))⟩

/-! ## Validation Harness (spec §4.7) -/

/-- Absolute-difference comparison within the fixed tolerance of spec §4.7
("exact-match (within a fixed floating tolerance, e.g. 1e-6)"). -/
def approxEq (x y : ℚ) : Bool := decide (|x - y| ≤ 1 / 1000000)

def optApproxEq : Option ℚ → Option ℚ → Bool
  | none, none => true
  | some x, some y => approxEq x y
  | _, _ => false

def listOptApproxEq (xs ys : List (Option ℚ)) : Bool :=
  xs.length == ys.length && (List.zip xs ys).all fun p => optApproxEq p.1 p.2

def smaOutcomeEq : Except AnalysisError (List (Option ℚ)) →
    Except AnalysisError (List (Option ℚ)) → Bool
  | .error e1, .error e2 => e1 == e2
  | .ok r1, .ok r2 => listOptApproxEq r1 r2
  | _, _ => false

def txnEq (a b : Transaction) : Bool :=
  a.buy_day == b.buy_day && a.sell_day == b.sell_day &&
  approxEq a.buy_price b.buy_price && approxEq a.sell_price b.sell_price &&
  approxEq a.profit b.profit

def txnsEq : List Transaction → List Transaction → Bool
  | [], [] => true
  | a :: as, b :: bs => txnEq a b && txnsEq as bs
  | _, _ => false

def maxProfitEq (a b : MaxProfitResult) : Bool :=
  approxEq a.total_profit b.total_profit && txnsEq a.transactions b.transactions

/-- One hand-verified input→expected fixture pair for one of the four engines
(spec §4.7). -/
inductive Fixture where
  | smaFix (closes : List ℚ) (window : ℤ)
      (expected : Except AnalysisError (List (Option ℚ)))
  | returnsFix (closes : List ℚ) (expected : List (Option ℚ))
  | runsFix (closes : List ℚ) (expected : RunsAnalysis)
  | profitFix (closes : List ℚ) (expected : MaxProfitResult)

/-- One entry of `ValidationResults.test_cases` in src/types.ts; its
`expected`/`actual` payloads are dynamically typed (`any`) and carry no
checked content, so only the test name and the pass flag are modelled. -/
structure TestCase where
  test : String
  passed : Bool
  deriving Repr, DecidableEq

/-- `ValidationResults.summary` in src/types.ts. -/
structure ValidationSummary where
  passed : ℕ
  total : ℕ
  success_rate : ℚ
  deriving Repr, DecidableEq

/-- `ValidationResults` in src/types.ts. -/
structure ValidationResults where
  test_cases : List TestCase
  summary : ValidationSummary
  deriving Repr, DecidableEq

/-- Modelled from the spec: §4.7 — run one fixture through its engine and
compare with the expected output; a mismatch becomes `passed := false`,
never an exception. -/
def runFixture : Fixture → TestCase
  | .smaFix closes window expected =>
      ⟨"SMA Calculation", smaOutcomeEq (computeSMA closes window) expected⟩
  | .returnsFix closes expected =>
      ⟨"Daily Returns", listOptApproxEq (computeDailyReturns closes) expected⟩
  | .runsFix closes expected =>
      ⟨"Runs Analysis", analyzeRuns closes == expected⟩
  | .profitFix closes expected =>
      ⟨"Max Profit", maxProfitEq (computeMaxProfit closes) expected⟩

/-- Modelled from the spec: §4.7 Validation Harness — runs every fixture to
completion, records one pass/fail entry each, and reports the aggregate pass
count and success rate.  The backend implementation (the `/validate` handler
in backend/app.py) is not in the checked-in sources. -/
def runValidation (fixtures : List Fixture) : ValidationResults :=
  let cases := fixtures.map runFixture
  let passedCount := (cases.filter (fun tc => tc.passed)).length
  ⟨cases, ⟨passedCount, cases.length,
    if cases.length = 0 then 0 else (passedCount : ℚ) / (cases.length : ℚ)⟩⟩

/-- C8: the harness is a total function — for every fixture list it reports one
test-case entry per fixture (comparison failures are `passed = false` records,
never exceptions, so the suite always runs to completion), and its summary
satisfies `passed` = number of passing entries ≤ `total` = number of fixtures,
with `success_rate` derived from them.  A concrete two-fixture suite with one
deliberately broken expectation still reports both entries and rate 1/2. -/
theorem validation_never_raises :
    (∀ fixtures : List Fixture,
      (runValidation fixtures).test_cases = fixtures.map runFixture ∧
      (runValidation fixtures).test_cases.length = fixtures.length ∧
      (runValidation fixtures).summary.total = fixtures.length ∧
      (runValidation fixtures).summary.passed =
        ((runValidation fixtures).test_cases.filter (fun tc => tc.passed)).length ∧
      (runValidation fixtures).summary.passed ≤
        (runValidation fixtures).summary.total ∧
      (runValidation fixtures).summary.success_rate =
        (if (runValidation fixtures).summary.total = 0 then 0
         else ((runValidation fixtures).summary.passed : ℚ) /
           ((runValidation fixtures).summary.total : ℚ))) ∧
    runValidation
        [.profitFix [1, 5, 3, 8, 2] ⟨9, [⟨0, 1, 1, 5, 4⟩, ⟨2, 3, 3, 8, 5⟩]⟩,
         .profitFix [9, 7, 5] ⟨1, []⟩] =
      ⟨[⟨"Max Profit", true⟩, ⟨"Max Profit", false⟩], ⟨1, 2, 1 / 2⟩⟩ := by
  constructor
  · intro fixtures
    refine ⟨rfl, by simp [runValidation], by simp [runValidation], rfl, ?_, rfl⟩
    exact le_trans (List.length_filter_le _ _)
      (le_of_eq (by simp [runValidation]))
  · norm_num [runValidation, runFixture, maxProfitEq, txnsEq, txnEq, approxEq,
      computeMaxProfit, txnsAux, positiveDeltaSum, List.filter]

/-! ## Frontend API helpers (src/api.ts) -/

/-- The parsed JSON body, as far as `apiRequest`/`uploadFile` inspect it: an
optional `error` string and an optional `message` string. -/
structure JsonBody where
  error : Option String
  message : Option String
  deriving Repr, DecidableEq

/-- Outcome of one `fetch`-then-`json()` interaction as observed by the
TypeScript code: the fetch promise rejects; a response arrives (with its
ok-status flag) but `response.json()` rejects; or a response arrives and its
body parses. -/
inductive FetchOutcome where
  | fetchRejects (err : String)
  | jsonRejects (ok : Bool) (err : String)
  | parsed (ok : Bool) (body : JsonBody)
  deriving Repr, DecidableEq

/-- `ApiResponse<T>` of src/api.ts: optional `data`, `error`, `message`. -/
structure ApiResponse where
  data : Option JsonBody
  error : Option String
  message : Option String
  deriving Repr, DecidableEq

/-- JavaScript `s || fallback` for a string field read off a JSON object: the
fallback is taken when the field is missing or the empty string (both falsy). -/
def jsOrString : Option String → String → String
  | none, d => d
  | some s, d => if s = "" then d else s

/-- Whether the HTTP response that arrived had ok status (false when fetch
itself rejected and no response exists). -/
def responseOk : FetchOutcome → Bool
  | .fetchRejects _ => false
  | .jsonRejects ok _ => ok
  | .parsed ok _ => ok

/-- Whether a response arrived and its body parsed as JSON. -/
def jsonParsed : FetchOutcome → Bool
  | .parsed _ _ => true
  | _ => false

/-- Embeds `apiRequest` of src/api.ts lines 42-70: the whole fetch/parse is
inside try/catch; `response.ok` → `{data: result}`; non-ok →
`{error: result.error || 'Request failed'}`; any rejection →
`{error: `Network error: ...`}`. -/
def apiRequest : FetchOutcome → ApiResponse
  | .fetchRejects err => ⟨none, some ("Network error: " ++ err), none⟩
  | .jsonRejects _ err => ⟨none, some ("Network error: " ++ err), none⟩
  | .parsed ok body =>
      if ok then ⟨some body, none, none⟩
      else ⟨none, some (jsOrString body.error "Request failed"), none⟩

/-- Embeds `uploadFile` of src/api.ts lines 83-109: same shape with
`{data: result, message: result.message}` on ok, fallback 'Upload failed' on
non-ok, and `Upload error:` on rejection. -/
def uploadFile : FetchOutcome → ApiResponse
  | .fetchRejects err => ⟨none, some ("Upload error: " ++ err), none⟩
  | .jsonRejects _ err => ⟨none, some ("Upload error: " ++ err), none⟩
  | .parsed ok body =>
      if ok then ⟨some body, none, body.message⟩
      else ⟨none, some (jsOrString body.error "Upload failed"), none⟩

/-- C9 counterexample: a response whose status is ok but whose body fails to
parse as JSON (`response.json()` rejects, e.g. HTML on a 200) falls into the
catch block, so the result carries an error and no data — refuting "exactly
when the response is ok, the result carries a data field" as stated. -/
theorem apiRequest_ok_response_without_data :
    responseOk (.jsonRejects true "SyntaxError: Unexpected token") = true ∧
    (apiRequest (.jsonRejects true "SyntaxError: Unexpected token")).data = none ∧
    (uploadFile (.jsonRejects true "SyntaxError: Unexpected token")).data = none :=
  ⟨rfl, rfl, rfl⟩

/-- C9 (amended): `apiRequest` and `uploadFile` always return an `ApiResponse`
and never propagate an exception: when fetch rejects or JSON parsing throws the
result is `{error: string}`; when the parsed response is non-ok the result's
error is the body's error string or the fixed fallback; and exactly when the
response is ok AND its body parses as JSON does the result carry a data
field. -/
theorem apiRequest_uploadFile_total :
    (∀ err, apiRequest (.fetchRejects err) =
      ⟨none, some ("Network error: " ++ err), none⟩) ∧
    (∀ ok err, apiRequest (.jsonRejects ok err) =
      ⟨none, some ("Network error: " ++ err), none⟩) ∧
    (∀ body, apiRequest (.parsed false body) =
      ⟨none, some (jsOrString body.error "Request failed"), none⟩) ∧
    (∀ body, apiRequest (.parsed true body) = ⟨some body, none, none⟩) ∧
    (∀ o, (apiRequest o).data.isSome = (responseOk o && jsonParsed o)) ∧
    (∀ err, uploadFile (.fetchRejects err) =
      ⟨none, some ("Upload error: " ++ err), none⟩) ∧
    (∀ ok err, uploadFile (.jsonRejects ok err) =
      ⟨none, some ("Upload error: " ++ err), none⟩) ∧
    (∀ body, uploadFile (.parsed false body) =
      ⟨none, some (jsOrString body.error "Upload failed"), none⟩) ∧
    (∀ body, uploadFile (.parsed true body) = ⟨some body, none, body.message⟩) ∧
    (∀ o, (uploadFile o).data.isSome = (responseOk o && jsonParsed o)) := by
  refine ⟨fun err => rfl, fun ok err => rfl, fun body => rfl, fun body => rfl,
    ?_, fun err => rfl, fun ok err => rfl, fun body => rfl, fun body => rfl, ?_⟩
  · intro o
    cases o with
    | fetchRejects err => rfl
    | jsonRejects ok err => cases ok <;> rfl
    | parsed ok body => cases ok <;> rfl
  · intro o
    cases o with
    | fetchRejects err => rfl
    | jsonRejects ok err => cases ok <;> rfl
    | parsed ok body => cases ok <;> rfl

/-! ## SMA-window input handler (src/components/AnalysisControls.tsx and the
inline copy in src/App.tsx / src/unnamed/part_005) -/

/-- Decimal-digit accumulator of JavaScript `parseInt`: consume leading digits
and ignore everything from the first non-digit on. -/
def digitsVal : List Char → ℕ → ℕ
  | [], acc => acc
  | c :: cs, acc =>
      if c.isDigit then digitsVal cs (acc * 10 + (c.toNat - 48)) else acc

/-- The longest leading digit prefix; `none` when there is no leading digit. -/
def leadingDigits : List Char → Option ℕ
  | [] => none
  | c :: cs => if c.isDigit then some (digitsVal (c :: cs) 0) else none

/-- JavaScript `parseInt(s)` (radix 10) restricted to the decimal forms an
`<input type="number">` value can take: optional leading spaces, an optional
sign, then a digit prefix; NaN — modelled as `none` — when no digit follows. -/
def jsParseInt (s : String) : Option ℤ :=
  let cs := s.toList.dropWhile (fun c => c = ' ')
  match cs with
  | '-' :: rest => (leadingDigits rest).map (fun n => -(n : ℤ))
  | '+' :: rest => (leadingDigits rest).map (fun n => (n : ℤ))
  | _ => (leadingDigits cs).map (fun n => (n : ℤ))

/-- Embeds the onChange handler
`setSmaWindow(parseInt(e.target.value) || 5)` of AnalysisControls.tsx
(lines 58-65) and of the inline copy in App.tsx: `NaN` and `0` are falsy, so
they fall back to 5; every other parsed integer is stored unchanged. -/
def handleSmaWindowChange (s : String) : ℤ :=
  match jsParseInt s with
  | none => 5
  | some n => if n = 0 then 5 else n

/-- The `smaWindow` React state across a sequence of input events:
`useState(5)` initially, each change event replacing it through the
handler. -/
def smaWindowAfter (events : List String) : ℤ :=
  events.foldl (fun _ s => handleSmaWindowChange s) 5

theorem handleSmaWindowChange_ne_zero (s : String) :
    handleSmaWindowChange s ≠ 0 := by
  rw [handleSmaWindowChange]
  cases jsParseInt s with
  | none => simp
  | some n =>
      by_cases h : n = 0
      · simp [h]
      · simp [h]

/-- C10: whenever the entered text parses to 0 or fails to parse (parseInt
gives NaN, e.g. an emptied field), the stored smaWindow becomes 5; hence the
frontend never holds (nor submits) sma_window = 0, while any other parsed
integer — negative values and values above 50 included, despite the input's
min 1 / max 50 — is stored unchanged. -/
theorem smaWindow_falsy_fallback :
    (∀ s, jsParseInt s = none → handleSmaWindowChange s = 5) ∧
    (∀ s, jsParseInt s = some 0 → handleSmaWindowChange s = 5) ∧
    (∀ s n, jsParseInt s = some n → n ≠ 0 → handleSmaWindowChange s = n) ∧
    (∀ events, smaWindowAfter events ≠ 0) ∧
    handleSmaWindowChange "" = 5 ∧
    handleSmaWindowChange "0" = 5 ∧
    handleSmaWindowChange "-3" = -3 ∧
    handleSmaWindowChange "99" = 99 := by
  have hfold : ∀ (events : List String) (init : ℤ), init ≠ 0 →
      events.foldl (fun _ s => handleSmaWindowChange s) init ≠ 0 := by
    intro events
    induction events with
    | nil => intro init h; exact h
    | cons e es ih =>
        intro init _
        exact ih (handleSmaWindowChange e) (handleSmaWindowChange_ne_zero e)
  refine ⟨?_, ?_, ?_, ?_, by decide, by decide, by decide, by decide⟩
  · intro s h
    rw [handleSmaWindowChange, h]
  · intro s h
    simp [handleSmaWindowChange, h]
  · intro s n h hn
    simp [handleSmaWindowChange, h, hn]
  · intro events
    exact hfold events 5 (by norm_num)

theorem smaWindow_falsy_fallback_witness :
    handleSmaWindowChange "-7" = -7 :=
  smaWindow_falsy_fallback.2.2.1 "-7" (-7) (by decide) (by decide)

end StockDashboard
